import Mathlib

set_option autoImplicit false

/-
  Verification of kube-graffiti against its specification.

  The development shallowly embeds the relevant parts of the source:
  - cmd/command.go : the startup sequence (runRootCmd), the gate on the
    existing-object check (initExistingCheck, unmarshalFromViperStrict);
  - pkg/config/config.go : LoadConfig / setDefaults / unmarshalFromViperStrict
    and ValidateConfig with its three component validators;
  - the graffiti rule engine (pkg/graffiti), whose source is not part of the
    provided tree; its definitions are modelled from the specification and
    are marked as such.
-/

namespace KubeGraffiti

/-! ### Viper configuration values

A configuration value as held by the viper library: a string, boolean or
integer scalar.  `castToString` models the cast semantics used by
`viper.GetString` (spf13/cast): booleans render as "true"/"false",
integers via their decimal representation. -/

inductive VVal where
  | str (s : String)
  | bool (b : Bool)
  | int (n : Int)
deriving DecidableEq

def castToString : VVal → String
  | .str s => s
  | .bool b => cond b "true" "false"
  | .int n => toString n

/-- Whether an explicitly supplied value (flag, environment or config file)
exists for a key.  `none` models a key the user never set; viper defaults do
not count as set. -/
def vIsSet (v : Option VVal) : Bool := v.isSome

/-- Models `viper.GetString "check-existing"`: the explicit value if set,
otherwise the default `false` installed by `setDefaults`. -/
def vGetCheckExistingString (v : Option VVal) : String :=
  match v with
  | some w => castToString w
  | none => castToString (.bool false)

/-- Embeds the gate of `initExistingCheck` in cmd/command.go:
the existing-object applier is invoked unless
`!viper.IsSet("check-existing") || viper.GetString("check-existing") != "true"`. -/
def initExistingCheckRuns (ce : Option VVal) : Bool :=
  vIsSet ce && (vGetCheckExistingString ce == "true")

/-- Embeds the `CheckExisting` assignment of `unmarshalFromViperStrict` in
cmd/command.go, which uses the same condition as `initExistingCheck`. -/
def unmarshalCheckExisting (ce : Option VVal) : Bool :=
  if !vIsSet ce || vGetCheckExistingString ce != "true" then false else true

/-- Modelled from the spec: a "truthy representation" of the check-existing
setting.  String truthiness follows the cast semantics of the configuration
library (`1`, `t`, `T`, `true`, `TRUE`, `True`); a boolean is truthy iff it
is true; an integer is truthy iff it is nonzero; an absent value is falsy. -/
def truthyString (s : String) : Bool :=
  s == "1" || s == "t" || s == "T" || s == "true" || s == "TRUE" || s == "True"

def truthy : Option VVal → Bool
  | none => false
  | some (.str s) => truthyString s
  | some (.bool b) => b
  | some (.int n) => n != 0

/-! ### Startup sequence of runRootCmd (cmd/command.go)

The observable startup events of `runRootCmd`, in program order:
configuration load, validation, health-checker start, webhook server start
(`server.StartWebhookServer` inside `initWebhookServer`), webhook
registration with the API server, and finally the existing-object applier
(`existing.ApplyRulesAgainstExistingObjects` inside `initExistingCheck`). -/

inductive StartupEvent where
  | loadConfigEv
  | validateConfigEv
  | startHealthEv
  | startWebhookEv
  | registerHooksEv
  | applyExistingEv
deriving DecidableEq, BEq

/-- Embeds the event order of `initWebhookServer` (cmd/command.go): the
webhook server is started, then each rule is registered with the apiserver. -/
def initWebhookServerEvents : List StartupEvent :=
  [.startWebhookEv, .registerHooksEv]

/-- Embeds `initExistingCheck` (cmd/command.go): the applier event happens
iff the check-existing gate passes. -/
def initExistingCheckEvents (ce : Option VVal) : List StartupEvent :=
  if initExistingCheckRuns ce = true then [.applyExistingEv] else []

/-- Embeds the statement order of `runRootCmd` (cmd/command.go):
loadConfig, ValidateConfig, StartHealthChecker, then `initWebhookServer`,
then `initExistingCheck`. -/
def runRootCmdEvents (ce : Option VVal) : List StartupEvent :=
  [.loadConfigEv, .validateConfigEv, .startHealthEv] ++
    initWebhookServerEvents ++ initExistingCheckEvents ce

/-- C1: the claim states the applier runs iff check-existing holds any truthy
representation.  The code compares the string form with the literal "true":
on the truthy value "True" (e.g. GRAFFITI_CHECK_EXISTING=True, as a user
would write it) the gate does not run the applier even though the value is
truthy, and `unmarshalFromViperStrict` records CheckExisting = false; on the
string "true" and on boolean true the applier does run. -/
theorem checkExisting_gate_diverges_from_truthy :
    truthy (some (.str "True")) = true ∧
    initExistingCheckRuns (some (.str "True")) = false ∧
    unmarshalCheckExisting (some (.str "True")) = false ∧
    truthy (some (.int 1)) = true ∧
    initExistingCheckRuns (some (.int 1)) = false ∧
    initExistingCheckRuns (some (.str "true")) = true ∧
    initExistingCheckRuns (some (.bool true)) = true ∧
    initExistingCheckRuns none = false ∧
    initExistingCheckRuns (some (.bool false)) = false := by
  decide

/-! ### Association-list primitives

Keyed maps of the source (Go `map[string]string`, viper's key store, JSON
objects) are embedded as association lists with string keys.  `lookupA`
returns the first binding of a key; `setA` replaces the first binding or
appends a fresh one. -/

def lookupA {β : Type} : List (String × β) → String → Option β
  | [], _ => none
  | (k1, v) :: rest, k => if k1 = k then some v else lookupA rest k

def setA {β : Type} : List (String × β) → String → β → List (String × β)
  | [], k, v => [(k, v)]
  | (k1, v1) :: rest, k, v =>
    if k1 = k then (k, v) :: rest else (k1, v1) :: setA rest k v

theorem lookupA_setA {β : Type} (l : List (String × β)) (k q : String) (v : β) :
    lookupA (setA l k v) q = if k = q then some v else lookupA l q := by
  induction l with
  | nil => simp [setA, lookupA]
  | cons hd tl ih =>
    obtain ⟨k1, v1⟩ := hd
    by_cases h1 : k1 = k
    · subst h1
      by_cases h2 : k1 = q <;> simp [setA, lookupA, h2]
    · by_cases h2 : k1 = q
      · subst h2
        have hkq : ¬ k = k1 := fun h => h1 h.symm
        simp [setA, lookupA, h1, hkq]
      · simp [setA, lookupA, h1, h2, ih]

theorem lookupA_of_mem_nodup {β : Type} (l : List (String × β)) (k : String) (v : β)
    (hmem : (k, v) ∈ l) (hnodup : (l.map Prod.fst).Nodup) :
    lookupA l k = some v := by
  induction l with
  | nil => simp at hmem
  | cons hd tl ih =>
    obtain ⟨k1, v1⟩ := hd
    simp only [List.map_cons, List.nodup_cons] at hnodup
    rcases List.mem_cons.mp hmem with heq | htl
    · injection heq with hk hv
      subst hk
      subst hv
      simp [lookupA]
    · have hk1 : k1 ≠ k := by
        intro h
        subst h
        exact hnodup.1 (List.mem_map.mpr ⟨(k1, v), htl, rfl⟩)
      simp [lookupA, hk1, ih htl hnodup.2]

/-! ### Configuration model (pkg/config/config.go)

The `Rule` struct carries `Registration.Name`, `Matcher.LabelSelectors`,
`Matcher.FieldSelectors`, `Additions.Labels` and `Additions.Annotations`;
only the fields that `ValidateConfig` reads are embedded.  The external
selector validators (`graffiti.ValidateLabelSelector` /
`ValidateFieldSelector`) and the log-level table (`log.LogLevels`) live in
packages outside the provided tree, so they are passed as parameters:
a validator returns `none` on success and `some msg` on failure. -/

structure GoRule where
  name : String
  labelSelectors : List String
  fieldSelectors : List String
  addLabels : List (String × String)
  addAnnotations : List (String × String)
deriving DecidableEq

structure GoConfig where
  logLevel : String
  rules : List GoRule
deriving DecidableEq

inductive ConfigError where
  | badLogLevel (level : String)
  | missingParameter
  | noAdditions (name : String)
  | duplicateName (name : String)
  | badLabelSelector (name sel msg : String)
  | badFieldSelector (name sel msg : String)
deriving DecidableEq

/-- Embeds `validateLogArgs` (config.go): the configured log level must be a
key of the log-level table. -/
def validateLogArgs (logLevels : List String) (level : String) :
    Except ConfigError Unit :=
  if level ∈ logLevels then .ok () else .error (.badLogLevel level)

/-- Embeds the loop of `validateWebhookArgs` (config.go) over the required
parameter names, failing on the first one that `viper.IsSet` reports unset. -/
def checkRequiredParams (isSet : String → Bool) : List String → Except ConfigError Unit
  | [] => .ok ()
  | p :: ps => if isSet p then checkRequiredParams isSet ps else .error .missingParameter

/-- Embeds `validateWebhookArgs` (config.go): `server.namespace` and
`server.service` must both be set. -/
def validateWebhookArgs (isSet : String → Bool) : Except ConfigError Unit :=
  checkRequiredParams isSet ["server.namespace", "server.service"]

/-- First selector of a list rejected by a validator, with its message. -/
def firstBadSelector (v : String → Option String) : List String → Option (String × String)
  | [] => none
  | s :: ss =>
    match v s with
    | some msg => some (s, msg)
    | none => firstBadSelector v ss

/-- Embeds the rule loop of `validateRules` (config.go).  For each rule in
order: reject when both addition maps are empty; reject a name already seen;
reject the first invalid label selector, then the first invalid field
selector; otherwise record the name and continue. -/
def validateRulesAux (vL vF : String → Option String) (seen : List String) :
    List GoRule → Except ConfigError Unit
  | [] => .ok ()
  | r :: rest =>
    if r.addLabels.length = 0 ∧ r.addAnnotations.length = 0 then
      .error (.noAdditions r.name)
    else if r.name ∈ seen then
      .error (.duplicateName r.name)
    else
      match firstBadSelector vL r.labelSelectors with
      | some (s, msg) => .error (.badLabelSelector r.name s msg)
      | none =>
        match firstBadSelector vF r.fieldSelectors with
        | some (s, msg) => .error (.badFieldSelector r.name s msg)
        | none => validateRulesAux vL vF (r.name :: seen) rest

/-- Embeds `validateRules` (config.go), starting from an empty name set. -/
def validateRules (vL vF : String → Option String) (rules : List GoRule) :
    Except ConfigError Unit :=
  validateRulesAux vL vF [] rules

/-- Embeds `ValidateConfig` (config.go): `validateLogArgs`, then
`validateWebhookArgs`, then `validateRules`; the first error wins. -/
def validateConfig (logLevels : List String) (isSet : String → Bool)
    (vL vF : String → Option String) (c : GoConfig) : Except ConfigError Unit :=
  match validateLogArgs logLevels c.logLevel with
  | .error e => .error e
  | .ok _ =>
    match validateWebhookArgs isSet with
    | .error e => .error e
    | .ok _ => validateRules vL vF c.rules

/-- Modelled from the spec: the log-level table of the external log package,
whose keys are the recognized level names listed for the log-level flag
("panic, fatal, error, warn, info, debug"). -/
def logLevelNames : List String :=
  ["panic", "fatal", "error", "warn", "info", "debug"]

theorem validateLogArgs_ok_iff (logLevels : List String) (level : String) :
    validateLogArgs logLevels level = .ok () ↔ level ∈ logLevels := by
  by_cases h : level ∈ logLevels <;> simp [validateLogArgs, h]

theorem validateLogArgs_error_shape (logLevels : List String) (level : String)
    (e : ConfigError) (h : validateLogArgs logLevels level = .error e) :
    e = .badLogLevel level := by
  by_cases hmem : level ∈ logLevels <;> simp [validateLogArgs, hmem] at h
  exact h.symm

theorem checkRequiredParams_error_shape (isSet : String → Bool) :
    ∀ (ps : List String) (e : ConfigError),
      checkRequiredParams isSet ps = .error e → e = .missingParameter := by
  intro ps
  induction ps with
  | nil => intro e h; simp [checkRequiredParams] at h
  | cons p rest ih =>
    intro e h
    by_cases hp : isSet p = true
    · exact ih e (by simpa [checkRequiredParams, hp] using h)
    · rw [checkRequiredParams, if_neg hp] at h
      exact (Except.error.injEq _ _ ▸ h.symm)

theorem validateWebhookArgs_ok_iff (isSet : String → Bool) :
    validateWebhookArgs isSet = .ok () ↔
      (isSet "server.namespace" = true ∧ isSet "server.service" = true) := by
  cases hns : isSet "server.namespace" <;> cases hsv : isSet "server.service" <;>
    simp [validateWebhookArgs, checkRequiredParams, hns, hsv]

theorem validateConfig_ok_iff (logLevels : List String) (isSet : String → Bool)
    (vL vF : String → Option String) (c : GoConfig) :
    validateConfig logLevels isSet vL vF c = .ok () ↔
      (validateLogArgs logLevels c.logLevel = .ok () ∧
       validateWebhookArgs isSet = .ok () ∧
       validateRules vL vF c.rules = .ok ()) := by
  unfold validateConfig
  cases h1 : validateLogArgs logLevels c.logLevel with
  | error e => simp [h1]
  | ok u =>
    cases u
    cases h2 : validateWebhookArgs isSet with
    | error e => simp [h2]
    | ok u2 => cases u2; simp

theorem validateRulesAux_ok (vL vF : String → Option String) (rules : List GoRule) :
    ∀ seen : List String, validateRulesAux vL vF seen rules = .ok () →
      (∀ r ∈ rules, ¬ (r.addLabels.length = 0 ∧ r.addAnnotations.length = 0)) ∧
      (rules.map GoRule.name).Nodup ∧
      (∀ n ∈ rules.map GoRule.name, n ∉ seen) := by
  induction rules with
  | nil => intro seen _; simp
  | cons r rest ih =>
    intro seen h
    unfold validateRulesAux at h
    by_cases h1 : r.addLabels.length = 0 ∧ r.addAnnotations.length = 0
    · rw [if_pos h1] at h; simp at h
    · rw [if_neg h1] at h
      by_cases h2 : r.name ∈ seen
      · rw [if_pos h2] at h; simp at h
      · rw [if_neg h2] at h
        cases hL : firstBadSelector vL r.labelSelectors with
        | some p => obtain ⟨s, msg⟩ := p; rw [hL] at h; simp at h
        | none =>
          rw [hL] at h
          cases hF : firstBadSelector vF r.fieldSelectors with
          | some p => obtain ⟨s, msg⟩ := p; rw [hF] at h; simp at h
          | none =>
            rw [hF] at h
            obtain ⟨ha, hnd, hni⟩ := ih (r.name :: seen) h
            refine ⟨?_, ?_, ?_⟩
            · intro r2 hr2
              rcases List.mem_cons.mp hr2 with heq | hr2
              · exact heq ▸ h1
              · exact ha r2 hr2
            · simp only [List.map_cons, List.nodup_cons]
              exact ⟨fun hmem => (hni _ hmem) (List.mem_cons_self _ _), hnd⟩
            · intro n hn
              simp only [List.map_cons] at hn
              rcases List.mem_cons.mp hn with heq | hn2
              · exact heq ▸ h2
              · intro hseen
                exact (hni n hn2) (List.mem_cons_of_mem _ hseen)

theorem validateRulesAux_no_dup_error (vL vF : String → Option String)
    (rules : List GoRule) :
    ∀ seen : List String, (rules.map GoRule.name).Nodup →
      (∀ n ∈ rules.map GoRule.name, n ∉ seen) →
      ∀ n, validateRulesAux vL vF seen rules ≠ .error (.duplicateName n) := by
  induction rules with
  | nil => intro seen _ _ n h; simp [validateRulesAux] at h
  | cons r rest ih =>
    intro seen hnd hni n h
    unfold validateRulesAux at h
    by_cases h1 : r.addLabels.length = 0 ∧ r.addAnnotations.length = 0
    · rw [if_pos h1] at h; simp at h
    · rw [if_neg h1] at h
      by_cases h2 : r.name ∈ seen
      · exact (hni r.name (by simp)) h2
      · rw [if_neg h2] at h
        cases hL : firstBadSelector vL r.labelSelectors with
        | some p => obtain ⟨s, msg⟩ := p; rw [hL] at h; simp at h
        | none =>
          rw [hL] at h
          cases hF : firstBadSelector vF r.fieldSelectors with
          | some p => obtain ⟨s, msg⟩ := p; rw [hF] at h; simp at h
          | none =>
            rw [hF] at h
            simp only [List.map_cons, List.nodup_cons] at hnd
            refine ih (r.name :: seen) hnd.2 ?_ n h
            intro n2 hn2 hmem
            rcases List.mem_cons.mp hmem with heq | hseen
            · exact hnd.1 (heq ▸ hn2)
            · exact (hni n2 (List.mem_cons_of_mem _ hn2)) hseen

theorem validateRulesAux_noAdditions_sound (vL vF : String → Option String)
    (rules : List GoRule) :
    ∀ (seen : List String) (n : String),
      validateRulesAux vL vF seen rules = .error (.noAdditions n) →
      ∃ r ∈ rules, r.name = n ∧ r.addLabels = [] ∧ r.addAnnotations = [] := by
  induction rules with
  | nil => intro seen n h; simp [validateRulesAux] at h
  | cons r rest ih =>
    intro seen n h
    unfold validateRulesAux at h
    by_cases h1 : r.addLabels.length = 0 ∧ r.addAnnotations.length = 0
    · rw [if_pos h1] at h
      simp only [Except.error.injEq, ConfigError.noAdditions.injEq] at h
      exact ⟨r, List.mem_cons_self _ _, h,
        List.length_eq_zero.mp h1.1, List.length_eq_zero.mp h1.2⟩
    · rw [if_neg h1] at h
      by_cases h2 : r.name ∈ seen
      · rw [if_pos h2] at h; simp at h
      · rw [if_neg h2] at h
        cases hL : firstBadSelector vL r.labelSelectors with
        | some p => obtain ⟨s, msg⟩ := p; rw [hL] at h; simp at h
        | none =>
          rw [hL] at h
          cases hF : firstBadSelector vF r.fieldSelectors with
          | some p => obtain ⟨s, msg⟩ := p; rw [hF] at h; simp at h
          | none =>
            rw [hF] at h
            obtain ⟨r2, hr2, hprops⟩ := ih (r.name :: seen) n h
            exact ⟨r2, List.mem_cons_of_mem _ hr2, hprops⟩

/-- C6: a configured rule set with two rules of the same name makes
`ValidateConfig` fail (it never returns ok), and when all rule names are
distinct the duplicate-name check raises no error (no duplicate-name error
can be returned). -/
theorem duplicate_rule_names_are_config_errors (logLevels : List String)
    (isSet : String → Bool) (vL vF : String → Option String) (c : GoConfig) :
    (¬ (c.rules.map GoRule.name).Nodup →
        validateConfig logLevels isSet vL vF c ≠ .ok ()) ∧
    ((c.rules.map GoRule.name).Nodup →
        ∀ n, validateConfig logLevels isSet vL vF c ≠ .error (.duplicateName n)) := by
  constructor
  · intro hdup hok
    exact hdup ((validateRulesAux_ok vL vF c.rules []
      ((validateConfig_ok_iff logLevels isSet vL vF c).mp hok).2.2).2.1)
  · intro hnd n h
    unfold validateConfig at h
    cases h1 : validateLogArgs logLevels c.logLevel with
    | error e =>
      rw [h1] at h
      have := validateLogArgs_error_shape logLevels c.logLevel e h1
      simp only [Except.error.injEq] at h
      rw [h] at this
      simp at this
    | ok u =>
      cases u
      rw [h1] at h
      cases h2 : validateWebhookArgs isSet with
      | error e =>
        rw [h2] at h
        have := checkRequiredParams_error_shape isSet _ e h2
        simp only [Except.error.injEq] at h
        rw [h] at this
        simp at this
      | ok u2 =>
        cases u2
        rw [h2] at h
        exact validateRulesAux_no_dup_error vL vF c.rules [] hnd (by simp) n h

/-- C6 witness: a concrete two-rule set with the duplicated name "a" is
rejected, at a trivially passing environment. -/
theorem duplicate_rule_names_are_config_errors_witness :
    validateConfig logLevelNames (fun _ => true) (fun _ => none) (fun _ => none)
      ⟨"info", [⟨"a", [], [], [("k", "v")], []⟩, ⟨"a", [], [], [("k2", "v2")], []⟩]⟩ ≠
      .ok () :=
  (duplicate_rule_names_are_config_errors logLevelNames (fun _ => true)
    (fun _ => none) (fun _ => none)
    ⟨"info", [⟨"a", [], [], [("k", "v")], []⟩, ⟨"a", [], [], [("k2", "v2")], []⟩]⟩).1
    (by decide)

/-- C7: a rule whose additions contain no labels and no annotations makes
`ValidateConfig` fail; a no-additions error always names a rule of the set
whose additions are both empty; and when every rule has at least one label
or annotation addition, the no-additions check raises no error. -/
theorem rules_without_additions_are_config_errors (logLevels : List String)
    (isSet : String → Bool) (vL vF : String → Option String) (c : GoConfig) :
    ((∃ r ∈ c.rules, r.addLabels = [] ∧ r.addAnnotations = []) →
        validateConfig logLevels isSet vL vF c ≠ .ok ()) ∧
    (∀ n, validateConfig logLevels isSet vL vF c = .error (.noAdditions n) →
        ∃ r ∈ c.rules, r.name = n ∧ r.addLabels = [] ∧ r.addAnnotations = []) ∧
    ((∀ r ∈ c.rules, r.addLabels ≠ [] ∨ r.addAnnotations ≠ []) →
        ∀ n, validateConfig logLevels isSet vL vF c ≠ .error (.noAdditions n)) := by
  have sound : ∀ n, validateConfig logLevels isSet vL vF c = .error (.noAdditions n) →
      ∃ r ∈ c.rules, r.name = n ∧ r.addLabels = [] ∧ r.addAnnotations = [] := by
    intro n h
    unfold validateConfig at h
    cases h1 : validateLogArgs logLevels c.logLevel with
    | error e =>
      rw [h1] at h
      have := validateLogArgs_error_shape logLevels c.logLevel e h1
      simp only [Except.error.injEq] at h
      rw [h] at this
      simp at this
    | ok u =>
      cases u
      rw [h1] at h
      cases h2 : validateWebhookArgs isSet with
      | error e =>
        rw [h2] at h
        have := checkRequiredParams_error_shape isSet _ e h2
        simp only [Except.error.injEq] at h
        rw [h] at this
        simp at this
      | ok u2 =>
        cases u2
        rw [h2] at h
        exact validateRulesAux_noAdditions_sound vL vF c.rules [] n h
  refine ⟨?_, sound, ?_⟩
  · rintro ⟨r, hr, hl, ha⟩ hok
    have := ((validateRulesAux_ok vL vF c.rules []
      ((validateConfig_ok_iff logLevels isSet vL vF c).mp hok).2.2).1) r hr
    exact this ⟨by simp [hl], by simp [ha]⟩
  · intro hall n h
    obtain ⟨r, hr, _, hl, ha⟩ := sound n h
    rcases hall r hr with hne | hne
    · exact hne hl
    · exact hne ha

/-- C7 witness: a concrete one-rule set whose rule "a" has empty additions
is rejected, at a trivially passing environment. -/
theorem rules_without_additions_are_config_errors_witness :
    validateConfig logLevelNames (fun _ => true) (fun _ => none) (fun _ => none)
      ⟨"info", [⟨"a", [], [], [], []⟩]⟩ ≠ .ok () :=
  (rules_without_additions_are_config_errors logLevelNames (fun _ => true)
    (fun _ => none) (fun _ => none) ⟨"info", [⟨"a", [], [], [], []⟩]⟩).1
    ⟨⟨"a", [], [], [], []⟩, by decide, rfl, rfl⟩

/-- C8: `ValidateConfig` fails with the "missing required parameter" error of
`validateWebhookArgs` whenever `server.namespace` or `server.service` is not
set, and the webhook-argument check passes when both are set. -/
theorem missing_server_params_are_config_errors (logLevels : List String)
    (isSet : String → Bool) (vL vF : String → Option String) (c : GoConfig) :
    ((isSet "server.namespace" = false ∨ isSet "server.service" = false) →
        validateWebhookArgs isSet = .error .missingParameter ∧
        validateConfig logLevels isSet vL vF c ≠ .ok ()) ∧
    (isSet "server.namespace" = true → isSet "server.service" = true →
        validateWebhookArgs isSet = .ok ()) := by
  constructor
  · intro hunset
    have herr : validateWebhookArgs isSet = .error .missingParameter := by
      rcases hunset with h | h
      · simp [validateWebhookArgs, checkRequiredParams, h]
      · cases hns : isSet "server.namespace" <;>
          simp [validateWebhookArgs, checkRequiredParams, hns, h]
    refine ⟨herr, fun hok => ?_⟩
    have := ((validateConfig_ok_iff logLevels isSet vL vF c).mp hok).2.1
    rw [herr] at this
    simp at this
  · intro hns hsv
    exact (validateWebhookArgs_ok_iff isSet).mpr ⟨hns, hsv⟩

/-- C8 witness: with nothing set, the webhook-argument check returns the
missing-parameter error and `ValidateConfig` fails. -/
theorem missing_server_params_are_config_errors_witness :
    validateWebhookArgs (fun _ => false) = .error .missingParameter ∧
    validateConfig logLevelNames (fun _ => false) (fun _ => none) (fun _ => none)
      ⟨"info", []⟩ ≠ .ok () :=
  (missing_server_params_are_config_errors logLevelNames (fun _ => false)
    (fun _ => none) (fun _ => none) ⟨"info", []⟩).1 (Or.inl rfl)

/-- C9: the log-level check passes exactly for recognized level names, and an
unrecognized level makes `ValidateConfig` fail with the bad-log-level error. -/
theorem unknown_log_level_is_config_error (logLevels : List String)
    (isSet : String → Bool) (vL vF : String → Option String) (c : GoConfig) :
    (validateLogArgs logLevels c.logLevel = .ok () ↔ c.logLevel ∈ logLevels) ∧
    (c.logLevel ∉ logLevels →
        validateConfig logLevels isSet vL vF c = .error (.badLogLevel c.logLevel)) := by
  refine ⟨validateLogArgs_ok_iff logLevels c.logLevel, fun hmem => ?_⟩
  unfold validateConfig
  rw [show validateLogArgs logLevels c.logLevel = .error (.badLogLevel c.logLevel) by
    simp [validateLogArgs, hmem]]

/-- C9 witness: the unrecognized level "tracing" is rejected by
`ValidateConfig` against the recognized level names. -/
theorem unknown_log_level_is_config_error_witness :
    validateConfig logLevelNames (fun _ => true) (fun _ => none) (fun _ => none)
      ⟨"tracing", []⟩ = .error (.badLogLevel "tracing") :=
  (unknown_log_level_is_config_error logLevelNames (fun _ => true)
    (fun _ => none) (fun _ => none) ⟨"tracing", []⟩).2 (by decide)

/-! ### Defaults installed by config.LoadConfig (pkg/config/config.go) -/

/-- Embeds `setDefaults` (config.go): the `viper.SetDefault` calls in source
order, applied to an initially empty default store.  The source assigns
"server.cert-path" twice ("/server.pem" then "/key.pem") and never assigns
"server.key-path". -/
def configGoDefaults : List (String × VVal) :=
  setA (setA (setA (setA (setA (setA (setA (setA (setA []
    "log-level" (.str "info"))
    "check-existing" (.bool false))
    "server.port" (.int 8443))
    "health-checker.port" (.int 8080))
    "health-checker.path" (.str "/healthz"))
    "server.company-domain" (.str "acme.com"))
    "server.ca-cert-path" (.str "/ca.pem"))
    "server.cert-path" (.str "/server.pem"))
    "server.cert-path" (.str "/key.pem")

/-- Models viper's value resolution after `LoadConfig`: an explicit value
from the configuration file wins, otherwise the installed default. -/
def viperResolve (cfgFile : List (String × VVal)) (key : String) : Option VVal :=
  match lookupA cfgFile key with
  | some v => some v
  | none => lookupA configGoDefaults key

/-- Models mapstructure's decoding of a string field of the `Server` struct:
the cast of the resolved value, or the zero value "" when the key resolves
to nothing at all. -/
def getStringField (cfgFile : List (String × VVal)) (key : String) : String :=
  match viperResolve cfgFile key with
  | some v => castToString v
  | none => ""

/-- Models mapstructure's decoding of an integer field of the `Server`
struct; the zero value 0 when the key resolves to nothing. -/
def getIntField (cfgFile : List (String × VVal)) (key : String) : Int :=
  match viperResolve cfgFile key with
  | some (.int n) => n
  | _ => 0

/-- Embeds the `Server` struct of config.go (field `namespace` is spelled
`nspace` because `namespace` is a Lean keyword). -/
structure Server where
  webhookPort : Int
  companyDomain : String
  nspace : String
  service : String
  caCertPath : String
  serverCertPath : String
  serverKeyPath : String
deriving DecidableEq

/-- Embeds the `Server` part of `unmarshalFromViperStrict` (config.go):
each field decoded from its mapstructure key. -/
def loadServer (cfgFile : List (String × VVal)) : Server :=
  ⟨getIntField cfgFile "server.port",
   getStringField cfgFile "server.company-domain",
   getStringField cfgFile "server.namespace",
   getStringField cfgFile "server.service",
   getStringField cfgFile "server.ca-cert-path",
   getStringField cfgFile "server.cert-path",
   getStringField cfgFile "server.key-path"⟩

/-- C10: `setDefaults` leaves "/key.pem" as the default of server.cert-path
(its second assignment shadows "/server.pem") and installs no default for
server.key-path, so a configuration file setting neither key loads with
cert-path "/key.pem" and an empty key-path. -/
theorem cert_path_default_shadows_key_path (cfgFile : List (String × VVal))
    (h1 : lookupA cfgFile "server.cert-path" = none)
    (h2 : lookupA cfgFile "server.key-path" = none) :
    lookupA configGoDefaults "server.cert-path" = some (.str "/key.pem") ∧
    lookupA configGoDefaults "server.key-path" = none ∧
    (loadServer cfgFile).serverCertPath = "/key.pem" ∧
    (loadServer cfgFile).serverKeyPath = "" := by
  refine ⟨by decide, by decide, ?_, ?_⟩
  · show getStringField cfgFile "server.cert-path" = "/key.pem"
    unfold getStringField viperResolve
    rw [h1]
    decide
  · show getStringField cfgFile "server.key-path" = ""
    unfold getStringField viperResolve
    rw [h2]
    decide

/-- C10 witness: the empty configuration file sets neither path. -/
theorem cert_path_default_shadows_key_path_witness :
    lookupA configGoDefaults "server.cert-path" = some (.str "/key.pem") ∧
    lookupA configGoDefaults "server.key-path" = none ∧
    (loadServer []).serverCertPath = "/key.pem" ∧
    (loadServer []).serverKeyPath = "" :=
  cert_path_default_shadows_key_path [] rfl rfl

/-! ### Graffiti rule engine

The graffiti package (matcher, patch synthesizer, rule engine) is not part
of the provided tree; the definitions below are modelled from the
specification, sections 4.2 to 4.4, and say so in their doc comments. -/

/-- Modelled from the spec: the two metadata submaps a patch may touch. -/
inductive Target where
  | labels
  | annotations
deriving DecidableEq

/-- A key-value mapping in configuration order. -/
abbrev KVList := List (String × String)

/-- Modelled from the spec: object metadata; either submap may be absent. -/
structure MetaData where
  labels : Option KVList
  annotations : Option KVList
deriving DecidableEq

/-- Modelled from the spec: a decoded object document, its metadata plus the
rest of the document, which the engine never touches. -/
structure Obj where
  meta : MetaData
  rest : List (String × String)
deriving DecidableEq

/-- Modelled from the spec: a rule's additions payload. -/
structure Additions where
  labels : KVList
  annotations : KVList
deriving DecidableEq

def MetaData.sub (o : MetaData) : Target → Option KVList
  | .labels => o.labels
  | .annotations => o.annotations

def MetaData.setSub (o : MetaData) : Target → Option KVList → MetaData
  | .labels, m => { o with labels := m }
  | .annotations, m => { o with annotations := m }

def Additions.sub (a : Additions) : Target → KVList
  | .labels => a.labels
  | .annotations => a.annotations

/-- Modelled from the spec (4.3 rule 4): JSON-Pointer escaping of a key,
tilde to "~0" and slash to "~1". -/
def escapeChar (c : Char) : String :=
  if c = '~' then "~0" else if c = '/' then "~1" else String.singleton c

def escapeKey (k : String) : String :=
  String.join (k.data.map escapeChar)

def Target.basePath : Target → String
  | .labels => "/metadata/labels"
  | .annotations => "/metadata/annotations"

/-- Modelled from the spec: a JSON-Patch operation produced by the engine:
add of a whole submap at the target path, add of a single key at the escaped
per-key path, or replace of a single key at the escaped per-key path. -/
inductive PatchOp where
  | addMap (t : Target) (value : KVList)
  | addKey (t : Target) (key value : String)
  | replaceKey (t : Target) (key value : String)
deriving DecidableEq

def PatchOp.target : PatchOp → Target
  | .addMap t _ => t
  | .addKey t _ _ => t
  | .replaceKey t _ _ => t

/-- Rendered JSON-Pointer path of an operation. -/
def PatchOp.path : PatchOp → String
  | .addMap t _ => t.basePath
  | .addKey t k _ => t.basePath ++ "/" ++ escapeKey k
  | .replaceKey t k _ => t.basePath ++ "/" ++ escapeKey k

/-- Key and value of a per-key operation; `none` for a whole-submap add. -/
def PatchOp.opKV : PatchOp → Option (String × String)
  | .addMap _ _ => none
  | .addKey _ k v => some (k, v)
  | .replaceKey _ k v => some (k, v)

/-- Modelled from the spec (4.3 rule 1): when the target submap is absent
and the desired submap is nonempty, a single add of the full desired submap
at the target path. -/
def creationOps (t : Target) (ex : Option KVList) (des : KVList) : List PatchOp :=
  match ex with
  | none => if des.isEmpty then [] else [.addMap t des]
  | some _ => []

/-- Modelled from the spec (4.3 rule 2): adds for desired keys absent from
an existing submap, in configuration order. -/
def addOps (t : Target) (ex : Option KVList) (des : KVList) : List PatchOp :=
  match ex with
  | none => []
  | some m => (des.filter (fun kv => (lookupA m kv.1).isNone)).map
      (fun kv => .addKey t kv.1 kv.2)

/-- Modelled from the spec (4.3 rule 2): replaces for desired keys present
in an existing submap with a different value, in configuration order. -/
def replaceOps (t : Target) (ex : Option KVList) (des : KVList) : List PatchOp :=
  match ex with
  | none => []
  | some m => (des.filter (fun kv =>
      match lookupA m kv.1 with
      | some v => v != kv.2
      | none => false)).map (fun kv => .replaceKey t kv.1 kv.2)

/-- The three operation groups of one target, in the order of 4.3 rule 3. -/
def synthTarget (t : Target) (ex : Option KVList) (des : KVList) : List PatchOp :=
  creationOps t ex des ++ addOps t ex des ++ replaceOps t ex des

/-- Modelled from the spec (4.3): the Patch Synthesizer.  Operations are
grouped missing-parent creations first, then adds, then replaces, labels
before annotations within each group; the empty list is the empty-patch
sentinel. -/
def synthesize (o : MetaData) (a : Additions) : List PatchOp :=
  creationOps .labels o.labels a.labels ++
    creationOps .annotations o.annotations a.annotations ++
    addOps .labels o.labels a.labels ++
    addOps .annotations o.annotations a.annotations ++
    replaceOps .labels o.labels a.labels ++
    replaceOps .annotations o.annotations a.annotations

/-- Modelled from the spec (4.4): the Rule Engine for one rule.  The matcher
is a boolean function of the object (4.2); on a match the synthesizer runs
on the object's metadata submaps, otherwise the result is no change. -/
def engine (ruleMatches : Obj → Bool) (a : Additions) (o : Obj) : List PatchOp :=
  if ruleMatches o then synthesize o.meta a else []

/-- JSON-Patch application of one operation to one submap, per the standard
semantics: add of a whole map sets the member; add of a key sets it,
replacing any present value; replace requires the key to exist.  `none` is
a patch-application error. -/
def applyOpSub (ex : Option KVList) : PatchOp → Option (Option KVList)
  | .addMap _ m => some (some m)
  | .addKey _ k v =>
    match ex with
    | none => none
    | some m => some (some (setA m k v))
  | .replaceKey _ k v =>
    match ex with
    | none => none
    | some m =>
      match lookupA m k with
      | none => none
      | some _ => some (some (setA m k v))

/-- Application of one operation to the object metadata: the op acts on the
submap selected by its target. -/
def applyOp (o : MetaData) (op : PatchOp) : Option MetaData :=
  match applyOpSub (o.sub op.target) op with
  | none => none
  | some ex2 => some (o.setSub op.target ex2)

/-- Sequential application of a JSON-Patch to the object metadata. -/
def applyPatch : List PatchOp → MetaData → Option MetaData
  | [], o => some o
  | op :: rest, o =>
    match applyOp o op with
    | none => none
    | some o2 => applyPatch rest o2

/-- Sequential application of a JSON-Patch to a single submap. -/
def applySubPatch : List PatchOp → Option KVList → Option (Option KVList)
  | [], ex => some ex
  | op :: rest, ex =>
    match applyOpSub ex op with
    | none => none
    | some ex2 => applySubPatch rest ex2

theorem MetaData.setSub_sub_self (o : MetaData) (t : Target) :
    o.setSub t (o.sub t) = o := by
  cases t <;> rfl

theorem MetaData.sub_setSub_same (o : MetaData) (t : Target) (m : Option KVList) :
    (o.setSub t m).sub t = m := by
  cases t <;> rfl

theorem MetaData.sub_setSub_other (o : MetaData) (t t2 : Target) (m : Option KVList)
    (h : t ≠ t2) : (o.setSub t m).sub t2 = o.sub t2 := by
  cases t <;> cases t2 <;> first | rfl | exact absurd rfl h

theorem MetaData.setSub_setSub (o : MetaData) (t : Target) (m1 m2 : Option KVList) :
    (o.setSub t m1).setSub t m2 = o.setSub t m2 := by
  cases t <;> rfl

theorem PatchOp.path_shape (op : PatchOp) :
    ∃ r, op.path = op.target.basePath ++ r := by
  cases op with
  | addMap t m => exact ⟨"", by simp [PatchOp.path, PatchOp.target]⟩
  | addKey t k v =>
    exact ⟨"/" ++ escapeKey k, by simp [PatchOp.path, PatchOp.target, String.append_assoc]⟩
  | replaceKey t k v =>
    exact ⟨"/" ++ escapeKey k, by simp [PatchOp.path, PatchOp.target, String.append_assoc]⟩

/-- C5: every operation of an engine-produced patch has a path that begins
with /metadata/labels or /metadata/annotations; no operation addresses any
other field. -/
theorem engine_patch_paths_scoped (ruleMatches : Obj → Bool) (a : Additions)
    (o : Obj) (op : PatchOp) (_hmem : op ∈ engine ruleMatches a o) :
    (∃ r, op.path = "/metadata/labels" ++ r) ∨
    (∃ r, op.path = "/metadata/annotations" ++ r) := by
  obtain ⟨r, hr⟩ := PatchOp.path_shape op
  cases htgt : op.target with
  | labels =>
    left
    exact ⟨r, by rw [hr, htgt]; rfl⟩
  | annotations =>
    right
    exact ⟨r, by rw [hr, htgt]; rfl⟩

/-- C5 witness: a concrete engine run over an object with no labels submap
produces a whole-submap add whose path is scoped to the metadata labels. -/
theorem engine_patch_paths_scoped_witness :
    (∃ r, (PatchOp.addMap Target.labels [("a", "1")]).path = "/metadata/labels" ++ r) ∨
    (∃ r, (PatchOp.addMap Target.labels [("a", "1")]).path = "/metadata/annotations" ++ r) :=
  engine_patch_paths_scoped (fun _ => true) ⟨[("a", "1")], []⟩ ⟨⟨none, none⟩, []⟩
    (PatchOp.addMap Target.labels [("a", "1")]) (by decide)

theorem mem_nodup_val_eq {β : Type} (l : List (String × β)) (k : String) (v w : β)
    (h1 : (k, v) ∈ l) (h2 : (k, w) ∈ l) (hnd : (l.map Prod.fst).Nodup) : v = w := by
  have e1 := lookupA_of_mem_nodup l k v h1 hnd
  have e2 := lookupA_of_mem_nodup l k w h2 hnd
  rw [e1] at e2
  injection e2

theorem creationOps_opKV (t : Target) (ex : Option KVList) (des : KVList)
    (op : PatchOp) (h : op ∈ creationOps t ex des) : op.opKV = none := by
  unfold creationOps at h
  cases ex with
  | some m => simp at h
  | none =>
    by_cases hd : des.isEmpty = true
    · simp [hd] at h
    · simp [hd] at h
      rw [h]
      rfl

theorem mem_addOps (t : Target) (m : KVList) (des : KVList) (op : PatchOp)
    (h : op ∈ addOps t (some m) des) :
    ∃ k v, op = .addKey t k v ∧ (k, v) ∈ des ∧ lookupA m k = none := by
  unfold addOps at h
  obtain ⟨kv, hkv, heq⟩ := List.mem_map.mp h
  obtain ⟨hdes, hcond⟩ := List.mem_filter.mp hkv
  refine ⟨kv.1, kv.2, heq.symm, by rwa [Prod.mk.eta], ?_⟩
  simpa using hcond

theorem mem_replaceOps (t : Target) (m : KVList) (des : KVList) (op : PatchOp)
    (h : op ∈ replaceOps t (some m) des) :
    ∃ k v w, op = .replaceKey t k v ∧ (k, v) ∈ des ∧
      lookupA m k = some w ∧ w ≠ v := by
  unfold replaceOps at h
  obtain ⟨kv, hkv, heq⟩ := List.mem_map.mp h
  obtain ⟨hdes, hcond⟩ := List.mem_filter.mp hkv
  cases hlk : lookupA m kv.1 with
  | none => rw [hlk] at hcond; simp at hcond
  | some w =>
    rw [hlk] at hcond
    refine ⟨kv.1, kv.2, w, heq.symm, by rwa [Prod.mk.eta], hlk, ?_⟩
    simpa [bne_iff_ne] using hcond

theorem addOps_target (t : Target) (ex : Option KVList) (des : KVList)
    (op : PatchOp) (h : op ∈ addOps t ex des) : op.target = t := by
  cases ex with
  | none => simp [addOps] at h
  | some m =>
    obtain ⟨k, v, heq, _, _⟩ := mem_addOps t m des op h
    rw [heq]
    rfl

theorem replaceOps_target (t : Target) (ex : Option KVList) (des : KVList)
    (op : PatchOp) (h : op ∈ replaceOps t ex des) : op.target = t := by
  cases ex with
  | none => simp [replaceOps] at h
  | some m =>
    obtain ⟨k, v, w, heq, _, _, _⟩ := mem_replaceOps t m des op h
    rw [heq]
    rfl

/-- C4: against an object on which the target submap exists, the synthesizer
emits, for each desired key, an add at the escaped per-key path when the key
is absent, no operation at all when the key is present with the desired
value, and a replace at the escaped per-key path when the key is present
with a different value. -/
theorem synthesizer_perkey_semantics (o : MetaData) (a : Additions) (t : Target)
    (m : KVList) (k v : String) (hex : o.sub t = some m)
    (hmem : (k, v) ∈ a.sub t) (hnd : ((a.sub t).map Prod.fst).Nodup) :
    (lookupA m k = none →
        PatchOp.addKey t k v ∈ synthesize o a ∧
        (PatchOp.addKey t k v).path = t.basePath ++ "/" ++ escapeKey k) ∧
    (lookupA m k = some v →
        ∀ op ∈ synthesize o a, ¬ (op.target = t ∧ ∃ w, op.opKV = some (k, w))) ∧
    (∀ w, lookupA m k = some w → w ≠ v →
        PatchOp.replaceKey t k v ∈ synthesize o a ∧
        (PatchOp.replaceKey t k v).path = t.basePath ++ "/" ++ escapeKey k) := by
  have hsubset_add : ∀ op ∈ addOps t (o.sub t) (a.sub t), op ∈ synthesize o a := by
    intro op hop
    cases t <;>
      simp only [MetaData.sub, Additions.sub] at hop <;>
      simp [synthesize, List.mem_append, hop]
  have hsubset_rep : ∀ op ∈ replaceOps t (o.sub t) (a.sub t), op ∈ synthesize o a := by
    intro op hop
    cases t <;>
      simp only [MetaData.sub, Additions.sub] at hop <;>
      simp [synthesize, List.mem_append, hop]
  refine ⟨?_, ?_, ?_⟩
  · intro hnone
    refine ⟨?_, rfl⟩
    apply hsubset_add
    rw [hex]
    unfold addOps
    exact List.mem_map.mpr ⟨(k, v),
      List.mem_filter.mpr ⟨hmem, by rw [hnone]; rfl⟩, rfl⟩
  · rintro heq op hop ⟨htgt, w, hkv⟩
    have hmem6 : op ∈ creationOps .labels o.labels a.labels ∨
        op ∈ creationOps .annotations o.annotations a.annotations ∨
        op ∈ addOps .labels o.labels a.labels ∨
        op ∈ addOps .annotations o.annotations a.annotations ∨
        op ∈ replaceOps .labels o.labels a.labels ∨
        op ∈ replaceOps .annotations o.annotations a.annotations := by
      simpa [synthesize, List.mem_append] using hop
    have htgt2 : ∀ t2 : Target, op.target = t2 → t2 = t := fun t2 h2 => by
      rw [← h2, htgt]
    rcases hmem6 with hc | hc | hc | hc | hc | hc
    · rw [creationOps_opKV _ _ _ _ hc] at hkv; exact Option.noConfusion hkv
    · rw [creationOps_opKV _ _ _ _ hc] at hkv; exact Option.noConfusion hkv
    · have ht : Target.labels = t := htgt2 _ (addOps_target _ _ _ _ hc)
      rw [← ht] at hex hmem hnd
      have hc2 : op ∈ addOps Target.labels (o.sub Target.labels) (a.sub Target.labels) := hc
      rw [hex] at hc2
      obtain ⟨k2, v2, heq2, hdes, hlk⟩ := mem_addOps _ _ _ _ hc2
      rw [heq2] at hkv
      simp only [PatchOp.opKV, Option.some.injEq, Prod.mk.injEq] at hkv
      rw [hkv.1] at hlk
      rw [hlk] at heq
      exact Option.noConfusion heq
    · have ht : Target.annotations = t := htgt2 _ (addOps_target _ _ _ _ hc)
      rw [← ht] at hex hmem hnd
      have hc2 : op ∈ addOps Target.annotations (o.sub Target.annotations) (a.sub Target.annotations) := hc
      rw [hex] at hc2
      obtain ⟨k2, v2, heq2, hdes, hlk⟩ := mem_addOps _ _ _ _ hc2
      rw [heq2] at hkv
      simp only [PatchOp.opKV, Option.some.injEq, Prod.mk.injEq] at hkv
      rw [hkv.1] at hlk
      rw [hlk] at heq
      exact Option.noConfusion heq
    · have ht : Target.labels = t := htgt2 _ (replaceOps_target _ _ _ _ hc)
      rw [← ht] at hex hmem hnd
      have hc2 : op ∈ replaceOps Target.labels (o.sub Target.labels) (a.sub Target.labels) := hc
      rw [hex] at hc2
      obtain ⟨k2, v2, w2, heq2, hdes, hlk, hne⟩ := mem_replaceOps _ _ _ _ hc2
      rw [heq2] at hkv
      simp only [PatchOp.opKV, Option.some.injEq, Prod.mk.injEq] at hkv
      rw [hkv.1] at hdes hlk
      have hv2 : v2 = v := mem_nodup_val_eq _ _ _ _ hdes hmem hnd
      rw [heq, Option.some.injEq] at hlk
      exact hne (hlk.symm.trans hv2.symm)
    · have ht : Target.annotations = t := htgt2 _ (replaceOps_target _ _ _ _ hc)
      rw [← ht] at hex hmem hnd
      have hc2 : op ∈ replaceOps Target.annotations (o.sub Target.annotations) (a.sub Target.annotations) := hc
      rw [hex] at hc2
      obtain ⟨k2, v2, w2, heq2, hdes, hlk, hne⟩ := mem_replaceOps _ _ _ _ hc2
      rw [heq2] at hkv
      simp only [PatchOp.opKV, Option.some.injEq, Prod.mk.injEq] at hkv
      rw [hkv.1] at hdes hlk
      have hv2 : v2 = v := mem_nodup_val_eq _ _ _ _ hdes hmem hnd
      rw [heq, Option.some.injEq] at hlk
      exact hne (hlk.symm.trans hv2.symm)
  · intro w hw hne
    refine ⟨?_, rfl⟩
    apply hsubset_rep
    rw [hex]
    unfold replaceOps
    refine List.mem_map.mpr ⟨(k, v), List.mem_filter.mpr ⟨hmem, ?_⟩, rfl⟩
    rw [hw]
    simpa [bne_iff_ne] using hne

/-- C4 witness: rule additions with key "a" desired as "1", against a labels
submap in which "a" currently holds "old"; the replace case applies. -/
theorem synthesizer_perkey_semantics_witness :
    PatchOp.replaceKey Target.labels "a" "1" ∈
      synthesize ⟨some [("a", "old")], none⟩ ⟨[("a", "1")], []⟩ ∧
    (PatchOp.replaceKey Target.labels "a" "1").path =
      Target.labels.basePath ++ "/" ++ escapeKey "a" :=
  (synthesizer_perkey_semantics ⟨some [("a", "old")], none⟩ ⟨[("a", "1")], []⟩
    Target.labels [("a", "old")] "a" "1" rfl (by decide) (by decide)).2.2
    "old" (by decide) (by decide)

/-- Keys addressed by the per-key operations of a patch, in order. -/
def opKeys : List PatchOp → List String
  | [] => []
  | op :: rest =>
    match op.opKV with
    | some (k, _) => k :: opKeys rest
    | none => opKeys rest

/-- First value written to a key by a list of per-key operations. -/
def findVal : List PatchOp → String → Option String
  | [], _ => none
  | op :: rest, k =>
    match op.opKV with
    | some (k2, v) => if k2 = k then some v else findVal rest k
    | none => findVal rest k

/-- Precondition for applying one operation to the submap `m`: whole-map
adds are excluded, and a replace needs its key present. -/
def subOpOK (m : KVList) : PatchOp → Prop
  | .addMap _ _ => False
  | .addKey _ _ _ => True
  | .replaceKey _ k _ => lookupA m k ≠ none

theorem lookupA_eq_none_of_not_mem {β : Type} (l : List (String × β)) (k : String)
    (h : k ∉ l.map Prod.fst) : lookupA l k = none := by
  induction l with
  | nil => rfl
  | cons hd tl ih =>
    obtain ⟨k1, v1⟩ := hd
    simp only [List.map_cons, List.mem_cons] at h
    push_neg at h
    have hne : k1 ≠ k := fun he => h.1 he.symm
    simp [lookupA, hne, ih h.2]

theorem findVal_eq_none (ops : List PatchOp) (k : String)
    (h : k ∉ opKeys ops) : findVal ops k = none := by
  induction ops with
  | nil => rfl
  | cons op rest ih =>
    cases hkv : op.opKV with
    | none =>
      simp only [findVal, hkv]
      exact ih (by simpa [opKeys, hkv] using h)
    | some p =>
      obtain ⟨k2, v⟩ := p
      simp only [opKeys, hkv, List.mem_cons] at h
      push_neg at h
      simp only [findVal, hkv]
      rw [if_neg (fun he => h.1 he.symm)]
      exact ih h.2

theorem opKeys_map_addKey (t : Target) (l : KVList) :
    opKeys (l.map (fun kv => PatchOp.addKey t kv.1 kv.2)) = l.map Prod.fst := by
  induction l with
  | nil => rfl
  | cons kv rest ih => simp [opKeys, PatchOp.opKV, ih]

theorem opKeys_map_replaceKey (t : Target) (l : KVList) :
    opKeys (l.map (fun kv => PatchOp.replaceKey t kv.1 kv.2)) = l.map Prod.fst := by
  induction l with
  | nil => rfl
  | cons kv rest ih => simp [opKeys, PatchOp.opKV, ih]

theorem opKeys_append (l1 l2 : List PatchOp) :
    opKeys (l1 ++ l2) = opKeys l1 ++ opKeys l2 := by
  induction l1 with
  | nil => rfl
  | cons op rest ih =>
    cases hkv : op.opKV with
    | none => simp [opKeys, hkv, ih]
    | some p =>
      obtain ⟨k2, v⟩ := p
      simp [opKeys, hkv, ih]

theorem findVal_append (l1 l2 : List PatchOp) (k : String) :
    findVal (l1 ++ l2) k =
      (match findVal l1 k with
       | some v => some v
       | none => findVal l2 k) := by
  induction l1 with
  | nil => rfl
  | cons op rest ih =>
    cases hkv : op.opKV with
    | none =>
      simp only [List.cons_append, findVal, hkv]
      exact ih
    | some p =>
      obtain ⟨k2, v⟩ := p
      simp only [List.cons_append, findVal, hkv]
      by_cases h2 : k2 = k
      · simp [h2]
      · simp [h2, ih]

theorem findVal_map_addKey (t : Target) (l : KVList) (k : String) :
    findVal (l.map (fun kv => PatchOp.addKey t kv.1 kv.2)) k = lookupA l k := by
  induction l with
  | nil => rfl
  | cons kv rest ih =>
    obtain ⟨k1, v1⟩ := kv
    by_cases h : k1 = k <;> simp [findVal, PatchOp.opKV, lookupA, h, ih]

theorem findVal_map_replaceKey (t : Target) (l : KVList) (k : String) :
    findVal (l.map (fun kv => PatchOp.replaceKey t kv.1 kv.2)) k = lookupA l k := by
  induction l with
  | nil => rfl
  | cons kv rest ih =>
    obtain ⟨k1, v1⟩ := kv
    by_cases h : k1 = k <;> simp [findVal, PatchOp.opKV, lookupA, h, ih]

theorem lookupA_filter {β : Type} (des : List (String × β)) (p : String × β → Bool)
    (k : String) (v : β) (hmem : (k, v) ∈ des)
    (hnd : (des.map Prod.fst).Nodup) :
    lookupA (des.filter p) k = if p (k, v) then some v else none := by
  induction des with
  | nil => simp at hmem
  | cons hd tl ih =>
    obtain ⟨k1, v1⟩ := hd
    simp only [List.map_cons, List.nodup_cons] at hnd
    rcases List.mem_cons.mp hmem with heq | htl
    · injection heq with hk hv
      subst hk
      subst hv
      by_cases hp : p (k, v) = true
      · simp [List.filter_cons, hp, lookupA]
      · simp only [List.filter_cons, hp, Bool.false_eq_true, if_neg, ite_false]
        apply lookupA_eq_none_of_not_mem
        intro hkmem
        obtain ⟨kv2, hkv2, hfst⟩ := List.mem_map.mp hkmem
        exact hnd.1 (List.mem_map.mpr ⟨kv2, (List.mem_filter.mp hkv2).1, hfst⟩)
    · have hk1 : k1 ≠ k := by
        intro he
        subst he
        exact hnd.1 (List.mem_map.mpr ⟨(k1, v), htl, rfl⟩)
      simp only [List.filter_cons]
      by_cases hp1 : p (k1, v1) = true
      · simp only [hp1, ite_true]
        simp [lookupA, hk1, ih htl hnd.2]
      · simp only [hp1, Bool.false_eq_true, ite_false]
        exact ih htl hnd.2

theorem applySubPatch_sets (ops : List PatchOp) : ∀ (m : KVList),
    (∀ op ∈ ops, subOpOK m op) → (opKeys ops).Nodup →
    ∃ m2, applySubPatch ops (some m) = some (some m2) ∧
      (∀ k v, findVal ops k = some v → lookupA m2 k = some v) ∧
      (∀ k, findVal ops k = none → lookupA m2 k = lookupA m k) := by
  induction ops with
  | nil =>
    intro m _ _
    exact ⟨m, rfl, fun k v h => by simp [findVal] at h, fun k _ => rfl⟩
  | cons op rest ih =>
    intro m hok hnd
    cases op with
    | addMap t mm =>
      exact absurd (hok _ (List.mem_cons_self _ _)) (by simp [subOpOK])
    | addKey t k2 v2 =>
      have hknd : k2 ∉ opKeys rest ∧ (opKeys rest).Nodup := by
        simpa [opKeys, PatchOp.opKV, List.nodup_cons] using hnd
      have hrest : ∀ op2 ∈ rest, subOpOK (setA m k2 v2) op2 := by
        intro op2 hop2
        have h2 := hok op2 (List.mem_cons_of_mem _ hop2)
        cases op2 with
        | addMap _ _ => exact h2
        | addKey _ _ _ => trivial
        | replaceKey t3 k3 v3 =>
          simp only [subOpOK] at h2 ⊢
          rw [lookupA_setA]
          by_cases h3 : k2 = k3
          · rw [if_pos h3]
            simp
          · rw [if_neg h3]
            exact h2
      obtain ⟨m2, happ, hA, hB⟩ := ih (setA m k2 v2) hrest hknd.2
      refine ⟨m2, ?_, ?_, ?_⟩
      · simp only [applySubPatch, applyOpSub]
        exact happ
      · intro q v h
        simp only [findVal, PatchOp.opKV] at h
        by_cases hq : k2 = q
        · rw [if_pos hq] at h
          injection h with hv
          subst hq
          rw [hB k2 (findVal_eq_none rest k2 hknd.1), lookupA_setA, if_pos rfl, hv]
        · rw [if_neg hq] at h
          exact hA q v h
      · intro q h
        simp only [findVal, PatchOp.opKV] at h
        by_cases hq : k2 = q
        · rw [if_pos hq] at h
          exact absurd h (by simp)
        · rw [if_neg hq] at h
          rw [hB q h, lookupA_setA, if_neg hq]
    | replaceKey t k2 v2 =>
      have hknd : k2 ∉ opKeys rest ∧ (opKeys rest).Nodup := by
        simpa [opKeys, PatchOp.opKV, List.nodup_cons] using hnd
      obtain ⟨w, hw⟩ : ∃ w, lookupA m k2 = some w :=
        Option.ne_none_iff_exists'.mp (hok _ (List.mem_cons_self _ _))
      have hrest : ∀ op2 ∈ rest, subOpOK (setA m k2 v2) op2 := by
        intro op2 hop2
        have h2 := hok op2 (List.mem_cons_of_mem _ hop2)
        cases op2 with
        | addMap _ _ => exact h2
        | addKey _ _ _ => trivial
        | replaceKey t3 k3 v3 =>
          simp only [subOpOK] at h2 ⊢
          rw [lookupA_setA]
          by_cases h3 : k2 = k3
          · rw [if_pos h3]
            simp
          · rw [if_neg h3]
            exact h2
      obtain ⟨m2, happ, hA, hB⟩ := ih (setA m k2 v2) hrest hknd.2
      refine ⟨m2, ?_, ?_, ?_⟩
      · simp only [applySubPatch, applyOpSub, hw]
        exact happ
      · intro q v h
        simp only [findVal, PatchOp.opKV] at h
        by_cases hq : k2 = q
        · rw [if_pos hq] at h
          injection h with hv
          subst hq
          rw [hB k2 (findVal_eq_none rest k2 hknd.1), lookupA_setA, if_pos rfl, hv]
        · rw [if_neg hq] at h
          exact hA q v h
      · intro q h
        simp only [findVal, PatchOp.opKV] at h
        by_cases hq : k2 = q
        · rw [if_pos hq] at h
          exact absurd h (by simp)
        · rw [if_neg hq] at h
          rw [hB q h, lookupA_setA, if_neg hq]

theorem synthTarget_some_applies (t : Target) (m des : KVList)
    (hnd : (des.map Prod.fst).Nodup) :
    ∃ m2, applySubPatch (synthTarget t (some m) des) (some m) = some (some m2) ∧
      ∀ kv ∈ des, lookupA m2 kv.1 = some kv.2 := by
  have hsyn : synthTarget t (some m) des =
      addOps t (some m) des ++ replaceOps t (some m) des := by
    simp [synthTarget, creationOps]
  have hok : ∀ op ∈ addOps t (some m) des ++ replaceOps t (some m) des,
      subOpOK m op := by
    intro op hop
    rcases List.mem_append.mp hop with hc | hc
    · obtain ⟨k, v, heq, _, _⟩ := mem_addOps t m des op hc
      rw [heq]
      trivial
    · obtain ⟨k, v, w, heq, _, hlk, _⟩ := mem_replaceOps t m des op hc
      rw [heq]
      simp [subOpOK, hlk]
  have hkeys : opKeys (addOps t (some m) des ++ replaceOps t (some m) des) =
      ((des.filter (fun kv => (lookupA m kv.1).isNone)).map Prod.fst) ++
      ((des.filter (fun kv =>
          match lookupA m kv.1 with
          | some v => v != kv.2
          | none => false)).map Prod.fst) := by
    rw [opKeys_append]
    unfold addOps replaceOps
    rw [opKeys_map_addKey, opKeys_map_replaceKey]
  have hnd2 : (opKeys (addOps t (some m) des ++ replaceOps t (some m) des)).Nodup := by
    rw [hkeys]
    rw [List.nodup_append]
    refine ⟨?_, ?_, ?_⟩
    · exact hnd.sublist (List.Sublist.map Prod.fst des.filter_sublist)
    · exact hnd.sublist (List.Sublist.map Prod.fst des.filter_sublist)
    · intro k hk1 hk2
      obtain ⟨kv1, hkv1, hfst1⟩ := List.mem_map.mp hk1
      obtain ⟨kv2, hkv2, hfst2⟩ := List.mem_map.mp hk2
      have hc1 := (List.mem_filter.mp hkv1).2
      have hc2 := (List.mem_filter.mp hkv2).2
      rw [hfst1] at hc1
      rw [hfst2] at hc2
      cases hlk : lookupA m k with
      | none => rw [hlk] at hc2; simp at hc2
      | some w => rw [hlk] at hc1; simp at hc1
  obtain ⟨m2, happ, hA, hB⟩ :=
    applySubPatch_sets (addOps t (some m) des ++ replaceOps t (some m) des)
      m hok hnd2
  refine ⟨m2, by rw [hsyn]; exact happ, ?_⟩
  intro kv hkv
  have hfv : findVal (addOps t (some m) des ++ replaceOps t (some m) des) kv.1 =
      (match lookupA (des.filter (fun kv => (lookupA m kv.1).isNone)) kv.1 with
       | some v => some v
       | none => lookupA (des.filter (fun kv =>
           match lookupA m kv.1 with
           | some v => v != kv.2
           | none => false)) kv.1) := by
    rw [findVal_append]
    unfold addOps replaceOps
    rw [findVal_map_addKey, findVal_map_replaceKey]
  have hmemkv : (kv.1, kv.2) ∈ des := by rwa [Prod.mk.eta]
  cases hlk : lookupA m kv.1 with
  | none =>
    have hf1 : lookupA (des.filter (fun kv => (lookupA m kv.1).isNone)) kv.1 =
        some kv.2 := by
      rw [lookupA_filter des _ kv.1 kv.2 hmemkv hnd]
      simp [hlk]
    apply hA
    rw [hfv, hf1]
  | some w =>
    have hf1 : lookupA (des.filter (fun kv => (lookupA m kv.1).isNone)) kv.1 =
        none := by
      rw [lookupA_filter des _ kv.1 kv.2 hmemkv hnd]
      simp [hlk]
    by_cases hval : w = kv.2
    · have hf2 : lookupA (des.filter (fun kv =>
          match lookupA m kv.1 with
          | some v => v != kv.2
          | none => false)) kv.1 = none := by
        rw [lookupA_filter des _ kv.1 kv.2 hmemkv hnd]
        simp [hlk, hval]
      have hfnone : findVal (addOps t (some m) des ++ replaceOps t (some m) des)
          kv.1 = none := by
        rw [hfv, hf1, hf2]
      rw [hB kv.1 hfnone, hlk, hval]
    · have hf2 : lookupA (des.filter (fun kv =>
          match lookupA m kv.1 with
          | some v => v != kv.2
          | none => false)) kv.1 = some kv.2 := by
        rw [lookupA_filter des _ kv.1 kv.2 hmemkv hnd]
        simp [hlk, bne_iff_ne, hval]
      apply hA
      rw [hfv, hf1, hf2]

theorem synthTarget_eq_nil (t : Target) (m des : KVList)
    (hall : ∀ kv ∈ des, lookupA m kv.1 = some kv.2) :
    synthTarget t (some m) des = [] := by
  simp only [synthTarget, creationOps, addOps, replaceOps, List.nil_append,
    List.append_eq_nil, List.map_eq_nil_iff, List.filter_eq_nil_iff]
  refine ⟨?_, ?_⟩ <;> intro kv hkv <;> simp [hall kv hkv]

theorem synthTarget_idem (t : Target) (ex : Option KVList) (des : KVList)
    (hnd : (des.map Prod.fst).Nodup) :
    ∃ ex2, applySubPatch (synthTarget t ex des) ex = some ex2 ∧
      synthTarget t ex2 des = [] := by
  cases ex with
  | none =>
    cases des with
    | nil => exact ⟨none, rfl, rfl⟩
    | cons kv rest =>
      refine ⟨some (kv :: rest), rfl, ?_⟩
      apply synthTarget_eq_nil
      intro kv2 hkv2
      exact lookupA_of_mem_nodup _ _ _ (by rwa [Prod.mk.eta]) hnd
  | some m =>
    obtain ⟨m2, happ, hall⟩ := synthTarget_some_applies t m des hnd
    exact ⟨some m2, happ, synthTarget_eq_nil t m2 des hall⟩

/-- Operations of a patch addressed at the submap `t`, in order. -/
def tOps (t : Target) (ops : List PatchOp) : List PatchOp :=
  ops.filter (fun op => decide (op.target = t))

theorem tOps_cons_same (t : Target) (op : PatchOp) (ops : List PatchOp)
    (h : op.target = t) : tOps t (op :: ops) = op :: tOps t ops := by
  simp [tOps, List.filter_cons, h]

theorem tOps_cons_other (t : Target) (op : PatchOp) (ops : List PatchOp)
    (h : ¬ op.target = t) : tOps t (op :: ops) = tOps t ops := by
  simp [tOps, List.filter_cons, h]

theorem applyPatch_split (ops : List PatchOp) : ∀ o : MetaData,
    applyPatch ops o =
      (match applySubPatch (tOps .labels ops) o.labels,
             applySubPatch (tOps .annotations ops) o.annotations with
       | some l2, some a2 => some ⟨l2, a2⟩
       | _, _ => none) := by
  induction ops with
  | nil => intro o; rfl
  | cons op rest ih =>
    intro o
    cases htgt : op.target with
    | labels =>
      rw [tOps_cons_same _ _ _ htgt,
        tOps_cons_other _ _ _ (by rw [htgt]; decide)]
      simp only [applyPatch, applyOp, htgt, MetaData.sub, applySubPatch]
      cases happ : applyOpSub o.labels op with
      | none => simp [happ]
      | some ex2 =>
        simp only [happ]
        rw [ih]
        simp [MetaData.setSub]
    | annotations =>
      rw [tOps_cons_other _ _ _ (by rw [htgt]; decide),
        tOps_cons_same _ _ _ htgt]
      simp only [applyPatch, applyOp, htgt, MetaData.sub, applySubPatch]
      cases happ : applyOpSub o.annotations op with
      | none =>
        simp only [happ]
        cases applySubPatch (tOps .labels rest) o.labels <;> rfl
      | some ex2 =>
        simp only [happ]
        rw [ih]
        simp [MetaData.setSub]

theorem creationOps_target (t : Target) (ex : Option KVList) (des : KVList)
    (op : PatchOp) (h : op ∈ creationOps t ex des) : op.target = t := by
  unfold creationOps at h
  cases ex with
  | some m => simp at h
  | none =>
    by_cases hd : des.isEmpty = true
    · simp [hd] at h
    · simp [hd] at h
      rw [h]
      rfl

theorem tOps_synthesize (t : Target) (o : MetaData) (a : Additions) :
    tOps t (synthesize o a) = synthTarget t (o.sub t) (a.sub t) := by
  have hfilter : ∀ (t2 : Target) (ops : List PatchOp), (∀ op ∈ ops, op.target = t2) →
      tOps t ops = if t2 = t then ops else [] := by
    intro t2 ops hall
    by_cases he : t2 = t
    · subst he
      rw [if_pos rfl]
      refine List.filter_eq_self.mpr ?_
      intro op hop
      simp [hall op hop]
    · rw [if_neg he]
      refine List.filter_eq_nil_iff.mpr ?_
      intro op hop
      simp [hall op hop, he]
  have e : tOps t (synthesize o a) =
      tOps t (creationOps .labels o.labels a.labels) ++
      tOps t (creationOps .annotations o.annotations a.annotations) ++
      tOps t (addOps .labels o.labels a.labels) ++
      tOps t (addOps .annotations o.annotations a.annotations) ++
      tOps t (replaceOps .labels o.labels a.labels) ++
      tOps t (replaceOps .annotations o.annotations a.annotations) := by
    simp [tOps, synthesize, List.filter_append]
  rw [e, hfilter _ _ (creationOps_target .labels o.labels a.labels),
    hfilter _ _ (creationOps_target .annotations o.annotations a.annotations),
    hfilter _ _ (addOps_target .labels o.labels a.labels),
    hfilter _ _ (addOps_target .annotations o.annotations a.annotations),
    hfilter _ _ (replaceOps_target .labels o.labels a.labels),
    hfilter _ _ (replaceOps_target .annotations o.annotations a.annotations)]
  cases t <;> simp [synthTarget, MetaData.sub, Additions.sub]

theorem synthesize_eq_nil_of_targets (o : MetaData) (a : Additions)
    (hL : synthTarget .labels o.labels a.labels = [])
    (hA : synthTarget .annotations o.annotations a.annotations = []) :
    synthesize o a = [] := by
  unfold synthTarget at hL hA
  obtain ⟨hl12, hl3⟩ := List.append_eq_nil.mp hL
  obtain ⟨hl1, hl2⟩ := List.append_eq_nil.mp hl12
  obtain ⟨ha12, ha3⟩ := List.append_eq_nil.mp hA
  obtain ⟨ha1, ha2⟩ := List.append_eq_nil.mp ha12
  simp [synthesize, hl1, hl2, hl3, ha1, ha2, ha3]

/-- C3: for any object matched by a rule, applying the engine-produced
JSON-Patch to the object's metadata succeeds and yields metadata on which a
second engine run produces the empty patch; the rest of the object document
is untouched by the application. -/
theorem engine_idempotent (ruleMatches : Obj → Bool) (a : Additions) (o : Obj)
    (hndL : (a.labels.map Prod.fst).Nodup)
    (hndA : (a.annotations.map Prod.fst).Nodup)
    (hmatch : ruleMatches o = true) :
    ∃ meta2 : MetaData,
      applyPatch (engine ruleMatches a o) o.meta = some meta2 ∧
      engine ruleMatches a ⟨meta2, o.rest⟩ = [] := by
  obtain ⟨exL, happL, hnilL⟩ := synthTarget_idem .labels o.meta.labels a.labels hndL
  obtain ⟨exA, happA, hnilA⟩ :=
    synthTarget_idem .annotations o.meta.annotations a.annotations hndA
  have heng : engine ruleMatches a o = synthesize o.meta a := by
    simp [engine, hmatch]
  have htL : tOps .labels (synthesize o.meta a) =
      synthTarget .labels o.meta.labels a.labels :=
    tOps_synthesize .labels o.meta a
  have htA : tOps .annotations (synthesize o.meta a) =
      synthTarget .annotations o.meta.annotations a.annotations :=
    tOps_synthesize .annotations o.meta a
  refine ⟨⟨exL, exA⟩, ?_, ?_⟩
  · rw [heng, applyPatch_split, htL, htA, happL, happA]
  · have hsyn2 : synthesize ⟨exL, exA⟩ a = [] :=
      synthesize_eq_nil_of_targets ⟨exL, exA⟩ a hnilL hnilA
    simp [engine, hsyn2]

/-- C3 witness: a concrete matched object with one stale label; the patch
applies and the second engine run is empty. -/
theorem engine_idempotent_witness :
    ∃ meta2 : MetaData,
      applyPatch (engine (fun _ => true) ⟨[("a", "1")], [("b", "2")]⟩
          ⟨⟨some [("a", "old")], none⟩, []⟩) ⟨some [("a", "old")], none⟩ =
        some meta2 ∧
      engine (fun _ => true) ⟨[("a", "1")], [("b", "2")]⟩ ⟨meta2, []⟩ = [] :=
  engine_idempotent (fun _ => true) ⟨[("a", "1")], [("b", "2")]⟩
    ⟨⟨some [("a", "old")], none⟩, []⟩ (by decide) (by decide) rfl

/-- C2 counterexample: with check-existing explicitly "true" the applier is
enabled, yet in the startup sequence of `runRootCmd` the webhook server
start event precedes the existing-object applier event, so the applier does
not complete before the webhook server begins accepting traffic. -/
theorem applier_runs_after_webhook_start_counterexample :
    initExistingCheckRuns (some (.str "true")) = true ∧
    ¬ (runRootCmdEvents (some (.str "true"))).indexOf StartupEvent.applyExistingEv <
        (runRootCmdEvents (some (.str "true"))).indexOf StartupEvent.startWebhookEv := by
  decide

/-- C2 amended: in every startup sequence in which the existing-object
applier is enabled, the webhook server is started strictly before the
applier runs (the applier runs last, after webhook start and registration). -/
theorem webhook_starts_before_applier (ce : Option VVal)
    (h : initExistingCheckRuns ce = true) :
    (runRootCmdEvents ce).indexOf StartupEvent.startWebhookEv <
      (runRootCmdEvents ce).indexOf StartupEvent.applyExistingEv := by
  simp only [runRootCmdEvents, initExistingCheckEvents, initWebhookServerEvents, h]
  decide

/-- C2 amended witness: instantiation at the explicit setting "true". -/
theorem webhook_starts_before_applier_witness :
    (runRootCmdEvents (some (.str "true"))).indexOf StartupEvent.startWebhookEv <
      (runRootCmdEvents (some (.str "true"))).indexOf StartupEvent.applyExistingEv :=
  webhook_starts_before_applier (some (.str "true")) (by decide)

end KubeGraffiti
